import Mathlib

/-!
Shallow embedding of the Merkle commitment engine of the flectra SDK
(source file `src/merkle/tree.ts`, re-exported from `src/index.ts`).

A hash value is modelled as the list of its bytes.  The TypeScript code
compares hashes with the string operator `<` on their lowercase
`0x`-prefixed hexadecimal form; on values of equal length this is exactly
the lexicographic order on the underlying byte sequences, which `hexLt`
implements.  The external primitive `keccak256` (from the `viem`
dependency, not part of this repository) is kept abstract: every
operation takes the hash primitive `K : Hash → Hash` as an explicit
parameter, so the theorems hold for an arbitrary choice of primitive.

TypeScript error handling (`throw new Error(...)`) is modelled with
`Except String`.  JavaScript out-of-bounds array reads yield `undefined`;
the only place the source can perform one is `proofData.positions[i]!` in
`verify`, where `undefined` is falsy and selects the `else` branch of the
ternary — modelled by `List.getD _ _ false`.
-/

namespace FlectraMerkle

/-- A hash value, as its sequence of bytes. -/
abbrev Hash := List Nat

/-- Lexicographic byte-wise comparison: the TS string comparison `a < b`
on equal-length hex-encoded hashes. -/
def hexLt : Hash → Hash → Bool
  | [], [] => false
  | [], _ :: _ => true
  | _ :: _, [] => false
  | a :: as, b :: bs =>
      if a < b then true else if b < a then false else hexLt as bs

/-- `sortAndConcat` from the source: `a < b ? concat([a, b]) : concat([b, a])`. -/
def sortAndConcat (a b : Hash) : Hash :=
  if hexLt a b then a ++ b else b ++ a

/-- `hashPair` from the source: `keccak256(sortAndConcat(a, b))`, with the
hash primitive `K` abstract. -/
def hashPair (K : Hash → Hash) (a b : Hash) : Hash :=
  K (sortAndConcat a b)

/-- One pairing round: the inner `for (let i = 0; i < layer.length; i += 2)`
loop shared by `buildMerkleTree` and `computeMerkleRoot`, with
`right = layer[i + 1] ?? left`. -/
def hashLayer (K : Hash → Hash) : List Hash → List Hash
  | [] => []
  | [a] => [hashPair K a a]
  | a :: b :: rest => hashPair K a b :: hashLayer K rest

/-- The odd-length padding step: if the working array has odd length the
last element is pushed again. -/
def padIfOdd (l : List Hash) : List Hash :=
  if l.length % 2 = 1 then l ++ [l.getLastD []] else l

/-- The `while (layers[layers.length - 1].length > 1)` loop of
`buildMerkleTree`, collecting every layer bottom-up.  Structured with
explicit fuel; `buildLayers` supplies sufficient fuel. -/
def buildLayersAux (K : Hash → Hash) : Nat → List Hash → List (List Hash)
  | 0, l => [l]
  | fuel + 1, l =>
      if l.length ≤ 1 then [l] else l :: buildLayersAux K fuel (hashLayer K l)

/-- All layers of the tree built from working layer `l`, index 0 = leaf layer. -/
def buildLayers (K : Hash → Hash) (l : List Hash) : List (List Hash) :=
  buildLayersAux K l.length l

/-- The proof-collection loop of `getProof`: walks `depth` levels of
`layers` maintaining `currentIndex`, returning the sibling list and the
position-flag list. -/
def proofSteps : List (List Hash) → Nat → Nat → List Hash × List Bool
  | _, 0, _ => ([], [])
  | [], _ + 1, _ => ([], [])
  | layer :: rest, d + 1, ci =>
      let isRight := ci % 2 == 1
      let siblingIndex := if isRight then ci - 1 else ci + 1
      let sib :=
        if siblingIndex < layer.length then layer.getD siblingIndex []
        else layer.getD ci []
      let pos :=
        if siblingIndex < layer.length then !isRight
        else true
      let next := proofSteps rest d (ci / 2)
      (sib :: next.1, pos :: next.2)

/-- The accumulator loop shared by `verify` and `verifyMerkleProof`:
`positions[i]!` past the end of the list is `undefined`, which is falsy,
hence `List.getD`-with-`false` semantics (`headD false` step by step). -/
def processProof (K : Hash → Hash) : Hash → List Hash → List Bool → Hash
  | acc, [], _ => acc
  | acc, s :: ss, pos =>
      processProof K (if pos.headD false then hashPair K acc s else hashPair K s acc)
        ss pos.tail

/-- The `MerkleProof` record of the source. -/
structure MerkleProof where
  leaf : Hash
  proof : List Hash
  positions : List Bool
  index : Int
  deriving Repr, DecidableEq

/-- The `MerkleTree` record of the source; `getProof` and `verify` are the
closures created by `buildMerkleTree`. -/
structure MerkleTree where
  root : Hash
  leaves : List Hash
  depth : Nat
  getProof : Int → Except String MerkleProof
  verify : MerkleProof → Bool

/-- `buildMerkleTree` from the source, branch for branch: empty input
throws, a single leaf yields the degenerate tree, otherwise the padded
working layer is folded into layers bottom-up. -/
def buildMerkleTree (K : Hash → Hash) (leaves : List Hash) :
    Except String MerkleTree :=
  if leaves.length = 0 then
    Except.error "Cannot build Merkle tree with no leaves"
  else if leaves.length = 1 then
    Except.ok
      { root := leaves.headD []
        leaves := leaves
        depth := 0
        getProof := fun index =>
          if index ≠ 0 then Except.error ("Invalid leaf index: " ++ toString index)
          else Except.ok { leaf := leaves.headD [], proof := [], positions := [], index := 0 }
        verify := fun p => p.leaf == leaves.headD [] && p.proof.length == 0 }
  else
    let workingLeaves := padIfOdd leaves
    let layers := buildLayers K workingLeaves
    let root := (layers.getLastD []).headD []
    let depth := layers.length - 1
    Except.ok
      { root := root
        leaves := leaves
        depth := depth
        getProof := fun index =>
          if index < 0 ∨ (leaves.length : Int) ≤ index then
            Except.error ("Invalid leaf index: " ++ toString index)
          else
            let steps := proofSteps layers depth index.toNat
            Except.ok
              { leaf := leaves.getD index.toNat []
                proof := steps.1
                positions := steps.2
                index := index }
        verify := fun p => processProof K p.leaf p.proof p.positions == root }

/-- `verifyMerkleProof` from the source: fold the proof into an
accumulator and compare with the expected root. -/
def verifyMerkleProof (K : Hash → Hash) (root : Hash) (proof : MerkleProof) : Bool :=
  processProof K proof.leaf proof.proof proof.positions == root

/-- The `while (currentLayer.length > 1)` loop of `computeMerkleRoot`,
with explicit fuel. -/
def rootLoopAux (K : Hash → Hash) : Nat → List Hash → List Hash
  | 0, l => l
  | fuel + 1, l =>
      if l.length ≤ 1 then l else rootLoopAux K fuel (hashLayer K l)

/-- `computeMerkleRoot` from the source: root-only fast path. -/
def computeMerkleRoot (K : Hash → Hash) (leaves : List Hash) :
    Except String Hash :=
  if leaves.length = 0 then
    Except.error "Cannot compute Merkle root with no leaves"
  else if leaves.length = 1 then
    Except.ok (leaves.headD [])
  else
    let workingLeaves := padIfOdd leaves
    Except.ok ((rootLoopAux K workingLeaves.length workingLeaves).headD [])

/-! ### Basic lemmas about the order and the layer step -/

/-- `hexLt` is a strict total comparison: mutually incomparable byte
sequences are equal. -/
theorem hexLt_total : ∀ a b : Hash, hexLt a b = false → hexLt b a = false → a = b := by
  intro a
  induction a with
  | nil =>
      intro b h₁ h₂
      cases b with
      | nil => rfl
      | cons y ys => simp [hexLt] at h₁
  | cons x xs ih =>
      intro b h₁ h₂
      cases b with
      | nil => simp [hexLt] at h₂
      | cons y ys =>
          simp only [hexLt] at h₁ h₂
          rcases Nat.lt_trichotomy x y with hxy | hxy | hxy
          · simp [hxy] at h₁
          · subst hxy
            simp [Nat.lt_irrefl] at h₁ h₂
            exact congrArg (x :: ·) (ih ys h₁ h₂)
          · simp [hxy, Nat.lt_asymm hxy] at h₂

/-- `hexLt` is asymmetric. -/
theorem hexLt_asymm : ∀ a b : Hash, hexLt a b = true → hexLt b a = false := by
  intro a
  induction a with
  | nil =>
      intro b h
      cases b with
      | nil => simp [hexLt] at h
      | cons y ys => simp [hexLt]
  | cons x xs ih =>
      intro b h
      cases b with
      | nil => simp [hexLt] at h
      | cons y ys =>
          simp only [hexLt] at h ⊢
          rcases Nat.lt_trichotomy x y with hxy | hxy | hxy
          · simp [hxy, Nat.lt_asymm hxy]
          · subst hxy
            simp [Nat.lt_irrefl] at h ⊢
            exact ih ys h
          · simp [hxy, Nat.lt_asymm hxy] at h

theorem sortAndConcat_comm (a b : Hash) : sortAndConcat a b = sortAndConcat b a := by
  unfold sortAndConcat
  rcases h : hexLt a b with _ | _
  · rcases h' : hexLt b a with _ | _
    · rw [hexLt_total a b h h']
    · simp
  · rw [hexLt_asymm a b h]
    simp

/-- The pairwise combinator is commutative for every hash primitive. -/
theorem hashPair_comm (K : Hash → Hash) (a b : Hash) :
    hashPair K a b = hashPair K b a := by
  unfold hashPair
  rw [sortAndConcat_comm]

/-- One pairing round halves the layer, rounding up. -/
theorem hashLayer_length (K : Hash → Hash) :
    ∀ l : List Hash, (hashLayer K l).length = (l.length + 1) / 2 := by
  intro l
  induction l using hashLayer.induct K with
  | case1 => simp [hashLayer]
  | case2 a => simp [hashLayer]
  | case3 a b rest ih =>
      simp only [hashLayer, List.length_cons, ih]
      omega

/-- The result of `buildLayersAux` does not depend on the fuel, as long as
the fuel dominates the layer length. -/
theorem buildLayersAux_congr (K : Hash → Hash) :
    ∀ fuel₁ fuel₂ l, l.length ≤ fuel₁ → l.length ≤ fuel₂ →
      buildLayersAux K fuel₁ l = buildLayersAux K fuel₂ l := by
  intro fuel₁
  induction fuel₁ with
  | zero =>
      intro fuel₂ l h₁ h₂
      have hl : l.length = 0 := Nat.le_zero.mp h₁
      cases fuel₂ with
      | zero => rfl
      | succ f₂ => simp [buildLayersAux, hl]
  | succ f₁ ih =>
      intro fuel₂ l h₁ h₂
      cases fuel₂ with
      | zero =>
          have hl : l.length = 0 := Nat.le_zero.mp h₂
          simp [buildLayersAux, hl]
      | succ f₂ =>
          by_cases hlen : l.length ≤ 1
          · simp [buildLayersAux, hlen]
          · simp only [buildLayersAux, if_neg hlen]
            have hstep : (hashLayer K l).length ≤ l.length - 1 := by
              rw [hashLayer_length]
              omega
            exact congrArg (l :: ·) (ih f₂ (hashLayer K l) (by omega) (by omega))

/-- Unfolding `buildLayers` on a short layer. -/
theorem buildLayers_short (K : Hash → Hash) (l : List Hash) (h : l.length ≤ 1) :
    buildLayers K l = [l] := by
  unfold buildLayers
  cases hl : l.length with
  | zero => rfl
  | succ n =>
      have : n = 0 := by omega
      subst this
      simp [buildLayersAux, hl, h]

/-- Unfolding `buildLayers` on a layer of length at least two. -/
theorem buildLayers_cons (K : Hash → Hash) (l : List Hash) (h : 2 ≤ l.length) :
    buildLayers K l = l :: buildLayers K (hashLayer K l) := by
  unfold buildLayers
  obtain ⟨f, hf⟩ : ∃ f, l.length = f + 1 := ⟨l.length - 1, by omega⟩
  rw [hf]
  simp only [buildLayersAux, if_neg (by omega : ¬ l.length ≤ 1)]
  have hstep : (hashLayer K l).length ≤ l.length - 1 := by
    rw [hashLayer_length]
    omega
  exact congrArg (l :: ·) (buildLayersAux_congr K f (hashLayer K l).length _ (by omega) le_rfl)

/-- `buildLayersAux` always returns at least one layer. -/
theorem buildLayersAux_ne_nil (K : Hash → Hash) :
    ∀ fuel l, buildLayersAux K fuel l ≠ [] := by
  intro fuel l
  cases fuel with
  | zero => simp [buildLayersAux]
  | succ f =>
      by_cases hlen : l.length ≤ 1 <;> simp [buildLayersAux, hlen]

/-- `buildLayers` always returns at least one layer. -/
theorem buildLayers_ne_nil (K : Hash → Hash) (l : List Hash) :
    buildLayers K l ≠ [] :=
  buildLayersAux_ne_nil K l.length l

/-- `getLastD` of a non-empty list ignores the default. -/
theorem getLastD_of_ne_nil {α : Type} (l : List α) (h : l ≠ []) (d₁ d₂ : α) :
    l.getLastD d₁ = l.getLastD d₂ := by
  rw [List.getLastD_eq_getLast?, List.getLastD_eq_getLast?]
  cases hx : l.getLast? with
  | none => exact absurd (List.getLast?_eq_none_iff.mp hx) h
  | some a => rfl

/-- `getLastD` skips a cons when the tail is non-empty. -/
theorem getLastD_cons_of_ne_nil {α : Type} (x : α) (l : List α) (h : l ≠ []) (d : α) :
    (x :: l).getLastD d = l.getLastD d := by
  rw [List.getLastD_eq_getLast?, List.getLastD_eq_getLast?, List.getLast?_cons]
  cases hx : l.getLast? with
  | none => exact absurd (List.getLast?_eq_none_iff.mp hx) h
  | some a => rfl

/-- Value of a pairing round at a position with a true sibling. -/
theorem hashLayer_getD_pair (K : Hash → Hash) :
    ∀ (l : List Hash) (j : Nat), 2 * j + 1 < l.length →
      (hashLayer K l).getD j [] = hashPair K (l.getD (2 * j) []) (l.getD (2 * j + 1) []) := by
  intro l
  induction l using hashLayer.induct K with
  | case1 =>
      intro j hj
      simp at hj
  | case2 a =>
      intro j hj
      simp at hj
  | case3 a b rest ih =>
      intro j hj
      cases j with
      | zero => simp [hashLayer]
      | succ j' =>
          have e2 : 2 * (j' + 1) + 1 = ((2 * j' + 1) + 1) + 1 := by omega
          have e1 : 2 * (j' + 1) = (2 * j' + 1) + 1 := by omega
          rw [hashLayer, e2, e1]
          simp only [List.getD_cons_succ]
          exact ih j' (by simp at hj; omega)

/-- Value of a pairing round at an unpaired trailing position: the node is
combined with itself. -/
theorem hashLayer_getD_last (K : Hash → Hash) :
    ∀ (l : List Hash) (j : Nat), 2 * j < l.length → l.length ≤ 2 * j + 1 →
      (hashLayer K l).getD j [] = hashPair K (l.getD (2 * j) []) (l.getD (2 * j) []) := by
  intro l
  induction l using hashLayer.induct K with
  | case1 =>
      intro j hj _
      simp at hj
  | case2 a =>
      intro j hj _
      have hj0 : j = 0 := by simp at hj; omega
      subst hj0
      simp [hashLayer]
  | case3 a b rest ih =>
      intro j hj hj'
      cases j with
      | zero =>
          simp at hj'
      | succ j' =>
          have e1 : 2 * (j' + 1) = (2 * j' + 1) + 1 := by omega
          rw [hashLayer, e1]
          simp only [List.getD_cons_succ]
          exact ih j' (by simp at hj; omega) (by simp at hj'; omega)

/-- The position flag never matters when folding with a commutative
combinator. -/
theorem hashPair_ite (K : Hash → Hash) (c : Bool) (a s : Hash) :
    (if c then hashPair K a s else hashPair K s a) = hashPair K a s := by
  cases c with
  | true => rfl
  | false => simp [hashPair_comm]

/-- Unfolding equation for one level of `proofSteps`. -/
theorem proofSteps_cons (layer : List Hash) (rest : List (List Hash)) (d ci : Nat) :
    proofSteps (layer :: rest) (d + 1) ci =
      ((if (if ci % 2 == 1 then ci - 1 else ci + 1) < layer.length
           then layer.getD (if ci % 2 == 1 then ci - 1 else ci + 1) []
           else layer.getD ci []) :: (proofSteps rest d (ci / 2)).1,
       (if (if ci % 2 == 1 then ci - 1 else ci + 1) < layer.length
           then !(ci % 2 == 1)
           else true) :: (proofSteps rest d (ci / 2)).2) := rfl

/-- Combining a node of a layer with the sibling selected by the
`getProof` walk yields the parent node one layer up. -/
theorem hashPair_sibling (K : Hash → Hash) (l : List Hash) (ci : Nat)
    (hci : ci < l.length) :
    hashPair K (l.getD ci [])
        (if (if ci % 2 == 1 then ci - 1 else ci + 1) < l.length
           then l.getD (if ci % 2 == 1 then ci - 1 else ci + 1) []
           else l.getD ci [])
      = (hashLayer K l).getD (ci / 2) [] := by
  by_cases hpar : ci % 2 = 1
  · have hsel : (if ci % 2 == 1 then ci - 1 else ci + 1) = ci - 1 := by
      simp [hpar]
    rw [hsel, if_pos (by omega : ci - 1 < l.length), hashPair_comm,
      hashLayer_getD_pair K l (ci / 2) (by omega : 2 * (ci / 2) + 1 < l.length),
      (by omega : 2 * (ci / 2) + 1 = ci), (by omega : 2 * (ci / 2) = ci - 1)]
  · have hpar0 : ci % 2 = 0 := by omega
    have hsel : (if ci % 2 == 1 then ci - 1 else ci + 1) = ci + 1 := by
      simp [hpar0]
    rw [hsel]
    by_cases hlt : ci + 1 < l.length
    · rw [if_pos hlt,
        hashLayer_getD_pair K l (ci / 2) (by omega : 2 * (ci / 2) + 1 < l.length),
        (by omega : 2 * (ci / 2) + 1 = ci + 1), (by omega : 2 * (ci / 2) = ci)]
    · rw [if_neg hlt,
        hashLayer_getD_last K l (ci / 2) (by omega : 2 * (ci / 2) < l.length)
          (by omega : l.length ≤ 2 * (ci / 2) + 1),
        (by omega : 2 * (ci / 2) = ci)]

/-- Main invariant: folding the sibling path produced by `proofSteps` from
any in-range position of the working layer reaches the head of the last
layer (the root). -/
theorem proofSteps_processProof (K : Hash → Hash) :
    ∀ fuel (l : List Hash) (ci : Nat), l.length ≤ fuel → ci < l.length →
      processProof K (l.getD ci [])
          (proofSteps (buildLayers K l) ((buildLayers K l).length - 1) ci).1
          (proofSteps (buildLayers K l) ((buildLayers K l).length - 1) ci).2
        = ((buildLayers K l).getLastD []).headD [] := by
  intro fuel
  induction fuel with
  | zero =>
      intro l ci h hci
      omega
  | succ f ih =>
      intro l ci h hci
      by_cases hlen : l.length ≤ 1
      · rw [buildLayers_short K l hlen]
        have hl1 : l.length = 1 := by omega
        have hci0 : ci = 0 := by omega
        subst hci0
        obtain ⟨x, hx⟩ : ∃ x, l = [x] := by
          cases l with
          | nil => simp at hl1
          | cons y ys =>
              cases ys with
              | nil => exact ⟨y, rfl⟩
              | cons z zs => simp at hl1
        subst hx
        simp [proofSteps, processProof]
      · push_neg at hlen
        have hlen2 : 2 ≤ l.length := hlen
        rw [buildLayers_cons K l hlen2]
        have hrne : buildLayers K (hashLayer K l) ≠ [] := buildLayers_ne_nil K _
        obtain ⟨e, he⟩ : ∃ e, (buildLayers K (hashLayer K l)).length = e + 1 := by
          cases hb : buildLayers K (hashLayer K l) with
          | nil => exact absurd hb hrne
          | cons y ys => exact ⟨ys.length, by simp⟩
        simp only [List.length_cons, Nat.add_sub_cancel, he]
        rw [proofSteps_cons, processProof]
        simp only [List.headD_cons, List.tail_cons, hashPair_ite]
        rw [hashPair_sibling K l ci hci]
        have hf : (hashLayer K l).length ≤ f := by
          rw [hashLayer_length]
          omega
        have hci2 : ci / 2 < (hashLayer K l).length := by
          rw [hashLayer_length]
          omega
        rw [(by omega : e = (buildLayers K (hashLayer K l)).length - 1),
          ih (hashLayer K l) (ci / 2) hf hci2,
          getLastD_cons_of_ne_nil l (buildLayers K (hashLayer K l)) hrne]

/-- The padding step only appends, so it preserves existing positions. -/
theorem padIfOdd_getD (l : List Hash) (i : Nat) (hi : i < l.length) :
    (padIfOdd l).getD i [] = l.getD i [] := by
  unfold padIfOdd
  split
  · rw [List.getD_eq_getElem?_getD, List.getD_eq_getElem?_getD,
      List.getElem?_append_left hi]
  · rfl

theorem padIfOdd_length (l : List Hash) :
    (padIfOdd l).length = if l.length % 2 = 1 then l.length + 1 else l.length := by
  unfold padIfOdd
  split <;> simp

theorem length_le_padIfOdd (l : List Hash) : l.length ≤ (padIfOdd l).length := by
  rw [padIfOdd_length]
  split <;> omega

/-- The last layer collected by `buildLayersAux` is what the root-only
loop of `computeMerkleRoot` computes. -/
theorem buildLayersAux_rootLoopAux (K : Hash → Hash) :
    ∀ fuel l, l.length ≤ fuel →
      (buildLayersAux K fuel l).getLastD [] = rootLoopAux K fuel l := by
  intro fuel
  induction fuel with
  | zero =>
      intro l h
      simp [buildLayersAux, rootLoopAux]
  | succ f ih =>
      intro l h
      by_cases hlen : l.length ≤ 1
      · simp [buildLayersAux, rootLoopAux, hlen]
      · simp only [buildLayersAux, rootLoopAux, if_neg hlen]
        rw [getLastD_cons_of_ne_nil _ _ (buildLayersAux_ne_nil K f _)]
        exact ih (hashLayer K l) (by rw [hashLayer_length]; omega)

/-- The number of pairing rounds recorded by `buildLayersAux` is the
ceiling base-2 logarithm of the layer length. -/
theorem buildLayersAux_length_clog (K : Hash → Hash) :
    ∀ fuel l, l.length ≤ fuel → 1 ≤ l.length →
      (buildLayersAux K fuel l).length - 1 = Nat.clog 2 l.length := by
  intro fuel
  induction fuel with
  | zero =>
      intro l h h1
      omega
  | succ f ih =>
      intro l h h1
      by_cases hlen : l.length ≤ 1
      · have hl1 : l.length = 1 := by omega
        simp [buildLayersAux, hlen, hl1, Nat.clog_of_right_le_one le_rfl]
      · push_neg at hlen
        simp only [buildLayersAux, if_neg (by omega : ¬ l.length ≤ 1), List.length_cons]
        have hr := ih (hashLayer K l) (by rw [hashLayer_length]; omega)
          (by rw [hashLayer_length]; omega)
        have hpos : 1 ≤ (buildLayersAux K f (hashLayer K l)).length := by
          cases hb : buildLayersAux K f (hashLayer K l) with
          | nil => exact absurd hb (buildLayersAux_ne_nil K f _)
          | cons y ys => simp
        rw [hashLayer_length] at hr
        rw [Nat.clog_of_two_le (by omega : (1:Nat) < 2) (by omega : 2 ≤ l.length),
          (by omega : l.length + 2 - 1 = l.length + 1)]
        set c := Nat.clog 2 ((l.length + 1) / 2) with hc
        omega

/-- Depth of the tree built over the padded working layer: the padding
does not change the ceiling logarithm. -/
theorem buildLayers_padIfOdd_clog (K : Hash → Hash) (leaves : List Hash)
    (h2 : 2 ≤ leaves.length) :
    (buildLayers K (padIfOdd leaves)).length - 1 = Nat.clog 2 leaves.length := by
  unfold buildLayers
  rw [buildLayersAux_length_clog K _ _ le_rfl (by
    have := length_le_padIfOdd leaves
    omega)]
  by_cases hodd : leaves.length % 2 = 1
  · rw [padIfOdd_length, if_pos hodd]
    rw [Nat.clog_of_two_le (by omega : (1:Nat) < 2) (by omega : 2 ≤ leaves.length + 1),
      Nat.clog_of_two_le (by omega : (1:Nat) < 2) (by omega : 2 ≤ leaves.length),
      (by omega : leaves.length + 1 + 2 - 1 = leaves.length + 2),
      (by omega : leaves.length + 2 - 1 = leaves.length + 1),
      (by omega : (leaves.length + 2) / 2 = (leaves.length + 1) / 2)]
  · rw [padIfOdd_length, if_neg hodd]

/-- The verification fold never reads the position flags: the combinator
is commutative. -/
theorem processProof_positions (K : Hash → Hash) :
    ∀ (ss : List Hash) (acc : Hash) (pos pos' : List Bool),
      processProof K acc ss pos = processProof K acc ss pos' := by
  intro ss
  induction ss with
  | nil =>
      intro acc pos pos'
      rfl
  | cons s ss ih =>
      intro acc pos pos'
      rw [processProof, processProof, hashPair_ite, hashPair_ite]
      exact ih _ _ _

/-! ### Claims -/

/-- C8: for every non-empty input of `n` leaf hashes, the built tree's
`leaves` field is exactly the original input in the original order,
untouched by any internal odd-length duplication. -/
theorem merkle_leaves_preserved (K : Hash → Hash) (leaves : List Hash)
    (t : MerkleTree) (ht : buildMerkleTree K leaves = Except.ok t) :
    t.leaves = leaves := by
  unfold buildMerkleTree at ht
  split at ht
  · simp at ht
  · split at ht
    · simp only [Except.ok.injEq] at ht
      subst ht
      rfl
    · simp only [Except.ok.injEq] at ht
      subst ht
      rfl

/-- C8 witness at a concrete odd-length input. -/
theorem merkle_leaves_preserved_witness :
    ∃ t, buildMerkleTree (fun l => l) [[1], [2], [3]] = Except.ok t ∧
      t.leaves = [[1], [2], [3]] :=
  ⟨_, rfl, merkle_leaves_preserved (fun l => l) [[1], [2], [3]] _ rfl⟩

/-- C2: for every non-empty leaf sequence, the root-only fast path agrees
with the full tree build: `computeMerkleRoot` returns exactly the built
tree's root. -/
theorem merkle_root_equivalence (K : Hash → Hash) (leaves : List Hash)
    (t : MerkleTree) (ht : buildMerkleTree K leaves = Except.ok t) :
    computeMerkleRoot K leaves = Except.ok t.root := by
  unfold buildMerkleTree at ht
  split at ht
  · simp at ht
  · split at ht
    · rename_i h0 h1
      simp only [Except.ok.injEq] at ht
      subst ht
      unfold computeMerkleRoot
      rw [if_neg h0, if_pos h1]
    · rename_i h0 h1
      simp only [Except.ok.injEq] at ht
      subst ht
      unfold computeMerkleRoot
      rw [if_neg h0, if_neg h1]
      show _ = Except.ok (((buildLayers K (padIfOdd leaves)).getLastD []).headD [])
      rw [buildLayers, buildLayersAux_rootLoopAux K (padIfOdd leaves).length _ le_rfl]

/-- C2 witness at a concrete odd-length input. -/
theorem merkle_root_equivalence_witness :
    ∃ t, buildMerkleTree (fun l => l) [[1], [2], [3]] = Except.ok t ∧
      computeMerkleRoot (fun l => l) [[1], [2], [3]] = Except.ok t.root :=
  ⟨_, rfl, merkle_root_equivalence (fun l => l) [[1], [2], [3]] _ rfl⟩

/-- C4: for `n ≥ 2` leaves the built tree's depth is `⌈log₂ n⌉`
(`Nat.clog 2 n`), and for `n = 1` the depth is `0`. -/
theorem merkle_depth_law (K : Hash → Hash) (leaves : List Hash)
    (t : MerkleTree) (ht : buildMerkleTree K leaves = Except.ok t) :
    (2 ≤ leaves.length → t.depth = Nat.clog 2 leaves.length) ∧
    (leaves.length = 1 → t.depth = 0) := by
  unfold buildMerkleTree at ht
  split at ht
  · simp at ht
  · split at ht
    · rename_i h0 h1
      simp only [Except.ok.injEq] at ht
      subst ht
      exact ⟨fun h2 => by omega, fun _ => rfl⟩
    · rename_i h0 h1
      simp only [Except.ok.injEq] at ht
      subst ht
      refine ⟨fun h2 => ?_, fun hc => absurd hc h1⟩
      show (buildLayers K (padIfOdd leaves)).length - 1 = Nat.clog 2 leaves.length
      exact buildLayers_padIfOdd_clog K leaves h2

/-- C4 witness: five leaves give depth `⌈log₂ 5⌉ = 3`. -/
theorem merkle_depth_law_witness :
    ∃ t, buildMerkleTree (fun l => l) [[1], [2], [3], [4], [5]] = Except.ok t ∧
      (2 ≤ 5 → t.depth = Nat.clog 2 5) ∧ (5 = 1 → t.depth = 0) :=
  ⟨_, rfl, merkle_depth_law (fun l => l) [[1], [2], [3], [4], [5]] _ rfl⟩

/-- C5: a single-leaf tree has the leaf itself as root, `getProof 0`
yields the proof with empty sibling and position lists, and that proof
verifies true both through the tree and against the root `h` standalone. -/
theorem merkle_single_leaf_identity (K : Hash → Hash) (h : Hash)
    (t : MerkleTree) (ht : buildMerkleTree K [h] = Except.ok t) :
    t.root = h ∧
    t.getProof 0 = Except.ok { leaf := h, proof := [], positions := [], index := 0 } ∧
    t.verify { leaf := h, proof := [], positions := [], index := 0 } = true ∧
    verifyMerkleProof K h { leaf := h, proof := [], positions := [], index := 0 } = true := by
  unfold buildMerkleTree at ht
  rw [if_neg (by simp), if_pos (by simp)] at ht
  simp only [Except.ok.injEq] at ht
  subst ht
  refine ⟨rfl, ?_, ?_, ?_⟩
  · show (if (0 : Int) ≠ 0
          then (Except.error ("Invalid leaf index: " ++ toString (0 : Int)) :
            Except String MerkleProof)
          else Except.ok { leaf := [h].headD [], proof := [], positions := [], index := 0 })
        = Except.ok { leaf := h, proof := [], positions := [], index := 0 }
    rw [if_neg (by omega)]
    rfl
  · show ((h == [h].headD []) && ([] : List Hash).length == 0) = true
    simp
  · show (processProof K h [] [] == h) = true
    simp [processProof]

/-- C5 witness at a concrete leaf. -/
theorem merkle_single_leaf_identity_witness :
    ∃ t, buildMerkleTree (fun l => l) [[7]] = Except.ok t ∧
      (t.root = [7] ∧
       t.getProof 0 = Except.ok { leaf := [7], proof := [], positions := [], index := 0 } ∧
       t.verify { leaf := [7], proof := [], positions := [], index := 0 } = true ∧
       verifyMerkleProof (fun l => l) [7]
         { leaf := [7], proof := [], positions := [], index := 0 } = true) :=
  ⟨_, rfl, merkle_single_leaf_identity (fun l => l) [7] _ rfl⟩

/-- C6: construction and root computation fail (with the empty-input
error) exactly on the empty leaf sequence, and succeed on every non-empty
sequence. -/
theorem merkle_empty_input_error (K : Hash → Hash) (leaves : List Hash) :
    ((∃ e, buildMerkleTree K leaves = Except.error e) ↔ leaves = []) ∧
    ((∃ e, computeMerkleRoot K leaves = Except.error e) ↔ leaves = []) := by
  unfold buildMerkleTree computeMerkleRoot
  by_cases h0 : leaves.length = 0
  · have hnil : leaves = [] := List.length_eq_zero.mp h0
    subst hnil
    simp
  · have hne : leaves ≠ [] := fun hc => h0 (by simp [hc])
    rw [if_neg h0, if_neg h0]
    by_cases h1 : leaves.length = 1
    · rw [if_pos h1, if_pos h1]
      simp [hne]
    · rw [if_neg h1, if_neg h1]
      simp [hne]

/-- C7: for a tree built from `n` original leaves, `getProof i` fails
exactly when `i < 0` or `i ≥ n`; padded duplicate leaves are never valid
indices. -/
theorem merkle_proof_index_range (K : Hash → Hash) (leaves : List Hash)
    (t : MerkleTree) (ht : buildMerkleTree K leaves = Except.ok t) (i : Int) :
    (∃ e, t.getProof i = Except.error e) ↔ (i < 0 ∨ (leaves.length : Int) ≤ i) := by
  unfold buildMerkleTree at ht
  split at ht
  · simp at ht
  · split at ht
    · rename_i h0 h1
      simp only [Except.ok.injEq] at ht
      subst ht
      dsimp only
      by_cases hi : i ≠ 0
      · rw [if_pos hi]
        simp [h1]
        omega
      · rw [if_neg hi]
        simp [h1]
        omega
    · rename_i h0 h1
      simp only [Except.ok.injEq] at ht
      subst ht
      dsimp only
      by_cases hc : i < 0 ∨ (leaves.length : Int) ≤ i
      · rw [if_pos hc]
        simp [hc]
      · rw [if_neg hc]
        simp [hc]

/-- C7 witness: on a two-leaf tree, index 5 is out of range. -/
theorem merkle_proof_index_range_witness :
    ∃ t, buildMerkleTree (fun l => l) [[1], [2]] = Except.ok t ∧
      ((∃ e, t.getProof 5 = Except.error e) ↔
        ((5:Int) < 0 ∨ ((([[1], [2]] : List Hash).length : Int) ≤ 5))) :=
  ⟨_, rfl, merkle_proof_index_range (fun l => l) [[1], [2]] _ rfl 5⟩

/-- C1: for every non-empty leaf sequence and every index `i` below the
leaf count, `getProof i` succeeds, the proof's leaf is `leaves[i]`, and
the tree verifies the proof — including indices whose path crosses an
odd-length layer. -/
theorem merkle_full_coverage (K : Hash → Hash) (leaves : List Hash)
    (t : MerkleTree) (ht : buildMerkleTree K leaves = Except.ok t)
    (i : Nat) (hi : i < leaves.length) :
    ∃ p, t.getProof (i : Int) = Except.ok p ∧ p.leaf = leaves.getD i [] ∧
      t.verify p = true := by
  unfold buildMerkleTree at ht
  split at ht
  · simp at ht
  · split at ht
    · rename_i h0 h1
      simp only [Except.ok.injEq] at ht
      subst ht
      have hi0 : i = 0 := by omega
      subst hi0
      refine ⟨{ leaf := leaves.headD [], proof := [], positions := [], index := 0 },
        ?_, ?_, ?_⟩
      · dsimp only
        rw [if_neg (by omega : ¬((0:Nat):Int) ≠ 0)]
      · show leaves.headD [] = leaves.getD 0 []
        cases leaves <;> simp
      · dsimp only
        simp
    · rename_i h0 h1
      simp only [Except.ok.injEq] at ht
      subst ht
      have hip : i < (padIfOdd leaves).length :=
        lt_of_lt_of_le hi (length_le_padIfOdd leaves)
      refine ⟨{ leaf := leaves.getD i [],
                proof := (proofSteps (buildLayers K (padIfOdd leaves))
                  ((buildLayers K (padIfOdd leaves)).length - 1) i).1,
                positions := (proofSteps (buildLayers K (padIfOdd leaves))
                  ((buildLayers K (padIfOdd leaves)).length - 1) i).2,
                index := (i : Int) }, ?_, ?_, ?_⟩
      · dsimp only
        rw [if_neg (by omega : ¬((i:Int) < 0 ∨ (leaves.length:Int) ≤ (i:Int)))]
        rfl
      · rfl
      · dsimp only
        simp only [beq_iff_eq]
        rw [← padIfOdd_getD leaves i hi]
        exact proofSteps_processProof K (padIfOdd leaves).length (padIfOdd leaves) i
          le_rfl hip

/-- C1 witness: in a three-leaf tree (odd layer), index 2 produces a
verifying proof carrying leaf `[3]`. -/
theorem merkle_full_coverage_witness :
    ∃ t, buildMerkleTree (fun l => l) [[1], [2], [3]] = Except.ok t ∧
      ∃ p, t.getProof ((2:Nat) : Int) = Except.ok p ∧ p.leaf = [3] ∧
        t.verify p = true :=
  ⟨_, rfl, merkle_full_coverage (fun l => l) [[1], [2], [3]] _ rfl 2 (by decide)⟩

/-- C9: verification is a total boolean function — for every root and
every proof value, including proofs whose sibling and position lists have
different lengths, both `verifyMerkleProof` and `tree.verify` return a
boolean and never fail. -/
theorem merkle_verify_total (K : Hash → Hash) (root : Hash) (p : MerkleProof) :
    (verifyMerkleProof K root p = true ∨ verifyMerkleProof K root p = false) ∧
    ∀ (leaves : List Hash) (t : MerkleTree),
      buildMerkleTree K leaves = Except.ok t →
        (t.verify p = true ∨ t.verify p = false) := by
  constructor
  · cases hb : verifyMerkleProof K root p
    · exact Or.inr rfl
    · exact Or.inl rfl
  · intro leaves t ht
    cases hb : t.verify p
    · exact Or.inr rfl
    · exact Or.inl rfl

/-- C9 witness: a malformed proof (one sibling, empty positions list)
still evaluates to a boolean on a concrete tree. -/
theorem merkle_verify_total_witness :
    ∃ t, buildMerkleTree (fun l => l) [[1], [2]] = Except.ok t ∧
      (t.verify { leaf := [5], proof := [[6]], positions := [], index := 3 } = true ∨
       t.verify { leaf := [5], proof := [[6]], positions := [], index := 3 } = false) :=
  ⟨_, rfl,
    (merkle_verify_total (fun l => l) [9]
      { leaf := [5], proof := [[6]], positions := [], index := 3 }).2 [[1], [2]] _ rfl⟩

/-- C10: the verification result depends only on the leaf and sibling
list — two proofs agreeing there but with arbitrary positions lists and
index fields verify identically, standalone and through any tree. -/
theorem merkle_positions_ignored (K : Hash → Hash) (root : Hash)
    (p q : MerkleProof) (hleaf : p.leaf = q.leaf) (hsib : p.proof = q.proof) :
    verifyMerkleProof K root p = verifyMerkleProof K root q ∧
    ∀ (leaves : List Hash) (t : MerkleTree),
      buildMerkleTree K leaves = Except.ok t → t.verify p = t.verify q := by
  constructor
  · unfold verifyMerkleProof
    rw [hleaf, hsib, processProof_positions K q.proof q.leaf p.positions q.positions]
  · intro leaves t ht
    unfold buildMerkleTree at ht
    split at ht
    · simp at ht
    · split at ht
      · simp only [Except.ok.injEq] at ht
        subst ht
        show (p.leaf == leaves.headD [] && p.proof.length == 0)
            = (q.leaf == leaves.headD [] && q.proof.length == 0)
        rw [hleaf, hsib]
      · simp only [Except.ok.injEq] at ht
        subst ht
        dsimp only
        rw [hleaf, hsib, processProof_positions K q.proof q.leaf p.positions q.positions]

/-- C10 witness: flipping the position flag and changing the index does
not change the verification outcome. -/
theorem merkle_positions_ignored_witness :
    (verifyMerkleProof (fun l => l) [9]
        { leaf := [1], proof := [[2]], positions := [true], index := 0 }
      = verifyMerkleProof (fun l => l) [9]
        { leaf := [1], proof := [[2]], positions := [false], index := 5 }) ∧
    ∃ t, buildMerkleTree (fun l => l) [[1], [2]] = Except.ok t ∧
      t.verify { leaf := [1], proof := [[2]], positions := [true], index := 0 }
        = t.verify { leaf := [1], proof := [[2]], positions := [false], index := 5 } :=
  ⟨(merkle_positions_ignored (fun l => l) [9]
      { leaf := [1], proof := [[2]], positions := [true], index := 0 }
      { leaf := [1], proof := [[2]], positions := [false], index := 5 } rfl rfl).1,
   _, rfl,
   (merkle_positions_ignored (fun l => l) [9]
      { leaf := [1], proof := [[2]], positions := [true], index := 0 }
      { leaf := [1], proof := [[2]], positions := [false], index := 5 } rfl rfl).2
     [[1], [2]] _ rfl⟩

/-- C3: the pairwise combinator is commutative for every hash primitive
and every pair of hash values: the byte-wise smaller operand is placed
first in the concatenation before hashing. -/
theorem merkle_hashPair_commutative (K : Hash → Hash) (a b : Hash) :
    hashPair K a b = hashPair K b a :=
  hashPair_comm K a b

end FlectraMerkle
